import Mathlib

/-!
# Value types and scene nodes of `types.h`, `cimTexture.h` and `cimModel.h`

A shallow embedding of `struct cimString`, the colour types, `cimTexel`,
`cimTexture` and `cimObject` with their member functions, followed by the
properties of the specification that concern them.

Conventions of the embedding

* a `char` is a `Byte`, one of 256 values;
* `size_t` is taken to be 64 bits wide: a sum of two `size_t` values is reduced
  modulo `SIZE_MOD = 2 ^ 64`;
* memory reached through a pointer is a function from offsets to bytes.  For the
  member `char data[CIM_MAXLEN]` the offsets `0 .. CIM_MAXLEN - 1` are the buffer;
* a `std::string` is the list of its bytes (it may hold NUL bytes), and `c_str()`
  is that list followed by a NUL;
* a `const char*` argument is the list of the bytes stored from the pointer on, a
  NUL following the last listed byte; `strlen` stops at the first NUL;
* a constructor receives the storage it is run on (`raw`), since the members it
  does not write keep whatever that storage held;
* the `_DEBUG` preprocessor switch is the `Bool` argument `debug`;
* a member that can leave the defined behaviour of the language (`Append`, whose
  copy can run past the buffer) returns an `Option`, `none` standing for a call
  without defined result;
* the conventions for `float` and for the free store are given with the
  definitions that use them.
-/

namespace Cim

/-- One `char`. -/
abbrev Byte := Fin 256

/-- Memory seen from a pointer: offset to byte. -/
abbrev Mem := Nat → Byte

/-- Constant `const size_t CIM_MAXLEN = 1024;` -/
def CIM_MAXLEN : Nat := 1024

/-- Number of values of a `size_t` (64-bit target). -/
def SIZE_MOD : Nat := 2 ^ 64

/-- Library `memcpy(dst + off, src, n)`: the `n` bytes at `src` replace those at offsets
`off .. off + n - 1` of `dst`. -/
def memcpy (dst : Mem) (off : Nat) (src : Mem) (n : Nat) : Mem :=
  fun i => if off ≤ i ∧ i < off + n then src (i - off) else dst i

/-- Library `memcpy(&buf[off], src, n)` for an array `buf` of `cap` bytes: `none`
when the copy would run past the end of the array, which the language leaves
undefined. -/
def memcpyInto (cap : Nat) (dst : Mem) (off : Nat) (src : Mem) (n : Nat) : Option Mem :=
  if off + n ≤ cap then some (memcpy dst off src n) else none

/-- Library `memset(dst + off, c, n)`. -/
def memset (dst : Mem) (off : Nat) (c : Byte) (n : Nat) : Mem :=
  fun i => if off ≤ i ∧ i < off + n then c else dst i

/-- Single store `dst[k] = c`. -/
def store (dst : Mem) (k : Nat) (c : Byte) : Mem :=
  fun i => if i = k then c else dst i

/-- Comparison loop of `memcmp`, from offset `i` on, `n` bytes left. -/
def memcmpFrom (a b : Mem) (i : Nat) : Nat → Int
  | 0 => 0
  | n + 1 =>
    if a i = b i then memcmpFrom a b (i + 1) n
    else ((a i).val : Int) - ((b i).val : Int)

/-- Library `memcmp(a, b, n)`: zero when the first `n` bytes agree, else the difference
of the first pair of bytes that differ. -/
def memcmp (a b : Mem) (n : Nat) : Int := memcmpFrom a b 0 n

/-- A `std::string`: its bytes. -/
abbrev StdString := List Byte

/-- Member `pString.c_str()`: the bytes, then NUL. -/
def c_str (p : StdString) : Mem := fun i => p.getD i 0

/-- A `const char*` argument: the bytes stored from the pointer on; a NUL
follows the last one. -/
abbrev CStr := List Byte

/-- Memory a `const char*` points to. -/
def cmem (sz : CStr) : Mem := fun i => sz.getD i 0

/-- Library `strlen`: number of bytes before the first NUL. -/
def strlen : CStr → Nat
  | [] => 0
  | c :: cs => if c = 0 then 0 else strlen cs + 1

/-- The bytes a C string stands for: those before the first NUL. -/
def content : CStr → List Byte
  | [] => []
  | c :: cs => if c = 0 then [] else c :: content cs

/-- Type `struct cimString`: `size_t length; char data[CIM_MAXLEN];`. -/
structure cimString where
  length : Nat
  data : Mem

namespace cimString

/-- Default constructor `cimString()`. -/
def ctor (debug : Bool) (raw : Mem) : cimString :=
  let data := store raw 0 0
  { length := 0
    data := if debug then memset data 1 27 (CIM_MAXLEN - 1) else data }

/-- Copy constructor `cimString(const cimString& rOther)`. -/
def copy (raw : Mem) (rOther : cimString) : cimString :=
  let length := rOther.length
  let length := if length ≥ CIM_MAXLEN then CIM_MAXLEN - 1 else length
  let data := memcpy raw 0 rOther.data length
  { length := length, data := store data length 0 }

/-- Constructor `explicit cimString(const std::string& pString)`. -/
def ofStdString (raw : Mem) (pString : StdString) : cimString :=
  let length := pString.length
  let length := if length ≥ CIM_MAXLEN then CIM_MAXLEN - 1 else length
  let data := memcpy raw 0 (c_str pString) length
  { length := length, data := store data length 0 }

/-- Member `void Set(const std::string& pString)`. -/
def Set (s : cimString) (pString : StdString) : cimString :=
  if pString.length > CIM_MAXLEN - 1 then s
  else
    let length := pString.length
    let data := memcpy s.data 0 (c_str pString) length
    { length := length, data := store data length 0 }

/-- Member `void Set(const char* sz)`. -/
def SetC (s : cimString) (sz : CStr) : cimString :=
  let len := strlen sz
  if len > CIM_MAXLEN - 1 then s
  else
    let data := memcpy s.data 0 (cmem sz) len
    { length := len, data := store data len 0 }

/-- Member `cimString& operator = (const char* sz)`. -/
def assignC (s : cimString) (sz : CStr) : cimString := s.SetC sz

/-- Member `cimString& operator = (const std::string& pString)`. -/
def assign (s : cimString) (pString : StdString) : cimString := s.Set pString

/-- Member `bool operator==(const cimString& other) const`. -/
def eq (s other : cimString) : Bool :=
  s.length == other.length && (0 : Int) == memcmp s.data other.data s.length

/-- Member `bool operator!=(const cimString& other) const`. -/
def ne (s other : cimString) : Bool :=
  s.length != other.length || (0 : Int) != memcmp s.data other.data s.length

/-- Member `void Append(const char* app)`.  The result is `none` where the call
has no defined behaviour: the sum `length + len` has wrapped around `size_t`, the
guard lets the call through and the copy to `&data[length]` leaves the buffer. -/
def Append (s : cimString) (app : CStr) : Option cimString :=
  let len := strlen app
  if len = 0 then some s
  else if (s.length + len) % SIZE_MOD ≥ CIM_MAXLEN then some s
  else
    match memcpyInto CIM_MAXLEN s.data s.length (cmem app) (len + 1) with
    | none => none
    | some data => some { length := (s.length + len) % SIZE_MOD, data := data }

/-- Member `void Clear()`. -/
def Clear (debug : Bool) (s : cimString) : cimString :=
  let data := store s.data 0 0
  { length := 0
    data := if debug then memset data 1 27 (CIM_MAXLEN - 1) else data }

/-- Member `const char* C_Str() const`. -/
def C_Str (s : cimString) : Mem := s.data

/-- The first `n` bytes at a pointer, as a list. -/
def bytes (m : Mem) (n : Nat) : List Byte := (List.range n).map m

/-- The class invariant: `length < CIM_MAXLEN` and `data[length] == 0`. -/
def Inv (s : cimString) : Prop := s.length < CIM_MAXLEN ∧ s.data s.length = 0

instance (s : cimString) : Decidable (Inv s) := by
  unfold Inv; exact inferInstance

end cimString

/-! ## Colours, texels and textures (`types.h`, `cimTexture.h`)

A `float` is either NaN or the number it denotes.  A quotient and a literal are
rounded to the nearest `float` (IEEE 754 binary32, ties to even).  Sums and
differences are taken without rounding, the properties about `+` and `-` being
stated over exact channel arithmetic.  Infinities and the sign of zero are left
out.  NaN propagates through arithmetic and every ordered or equality comparison
with NaN is false, so `!=` with NaN is true. -/

/-- Nearest integer to `x ≥ 0`; of two equally near integers, the even one. -/
def roundHalfEven (x : ℚ) : ℕ :=
  let m := ⌊x⌋₊
  if 1 / 2 < x - m ∨ (x - m = 1 / 2 ∧ m % 2 = 1) then m + 1 else m

/-- A `float` value. -/
inductive cfloat where
  | nan : cfloat
  | num (q : ℚ) : cfloat
  deriving DecidableEq

namespace cfloat

/-- Rounding of a number to `float`: 24 significant bits, the exponent of the
leading bit at least -126 (below that the spacing stays `2^-149`), nearest value,
ties to even.  A result of `2^128` or more is no `float` number and is given as
NaN. -/
def round (q : ℚ) : cfloat :=
  if q = 0 then num 0
  else
    let e : ℤ := max (Int.log 2 |q|) (-126)
    let ulp : ℚ := 2 ^ (e - 23)
    let v : ℚ := (roundHalfEven (|q| / ulp) : ℚ) * ulp
    if 2 ^ 128 ≤ v then nan else num (if q < 0 then -v else v)

/-- Conversion of an `unsigned char` to `float`, which is exact. -/
def ofByte (c : Byte) : cfloat := num (c.val : ℚ)

/-- Float `x + y`, without rounding. -/
def add : cfloat → cfloat → cfloat
  | num p, num q => num (p + q)
  | _, _ => nan

/-- Float `x - y`, without rounding. -/
def sub : cfloat → cfloat → cfloat
  | num p, num q => num (p - q)
  | _, _ => nan

/-- Float `x / y`, rounded; a zero divisor (which no caller passes) gives NaN. -/
def div : cfloat → cfloat → cfloat
  | num p, num q => if q = 0 then nan else round (p / q)
  | _, _ => nan

/-- Float `x == y`. -/
def eq : cfloat → cfloat → Bool
  | num p, num q => p == q
  | _, _ => false

/-- Float `x != y`. -/
def ne : cfloat → cfloat → Bool
  | num p, num q => p != q
  | _, _ => true

/-- Float `x < y`. -/
def lt : cfloat → cfloat → Bool
  | num p, num q => decide (p < q)
  | _, _ => false

/-- Library `fabs`. -/
def fabs : cfloat → cfloat
  | num p => num |p|
  | nan => nan

end cfloat

/-- Type `struct cimColor3D`: `float r, g, b;`. -/
structure cimColor3D where
  r : cfloat
  g : cfloat
  b : cfloat
  deriving DecidableEq

namespace cimColor3D

/-- Member `bool operator == (const cimColor3D& other) const`. -/
def eq (c other : cimColor3D) : Bool :=
  c.r.eq other.r && c.g.eq other.g && c.b.eq other.b

/-- Member `bool operator != (const cimColor3D& other) const`. -/
def ne (c other : cimColor3D) : Bool :=
  c.r.ne other.r || c.g.ne other.g || c.b.ne other.b

/-- Member `cimColor3D operator+(const cimColor3D& c) const`. -/
def add (x c : cimColor3D) : cimColor3D :=
  ⟨x.r.add c.r, x.g.add c.g, x.b.add c.b⟩

/-- Member `cimColor3D operator-(const cimColor3D& c) const`. -/
def sub (x c : cimColor3D) : cimColor3D :=
  ⟨x.r.sub c.r, x.g.sub c.g, x.b.sub c.b⟩

/-- Member `bool IsBlack() const`, with `epsilon = 10e-3f`. -/
def IsBlack (c : cimColor3D) : Bool :=
  let epsilon : cfloat := cfloat.round (10 / 1000)
  c.r.fabs.lt epsilon && c.g.fabs.lt epsilon && c.b.fabs.lt epsilon

end cimColor3D

/-- Type `struct cimColor4D`: `float r, g, b, a;`. -/
structure cimColor4D where
  r : cfloat
  g : cfloat
  b : cfloat
  a : cfloat
  deriving DecidableEq

namespace cimColor4D

/-- Member `bool operator == (const cimColor4D& other) const`. -/
def eq (c other : cimColor4D) : Bool :=
  c.r.eq other.r && c.g.eq other.g && c.b.eq other.b && c.a.eq other.a

/-- Member `bool operator != (const cimColor4D& other) const`. -/
def ne (c other : cimColor4D) : Bool :=
  c.r.ne other.r || c.g.ne other.g || c.b.ne other.b || c.a.ne other.a

/-- Member `cimColor4D operator+(const cimColor4D& c) const`. -/
def add (x c : cimColor4D) : cimColor4D :=
  ⟨x.r.add c.r, x.g.add c.g, x.b.add c.b, x.a.add c.a⟩

/-- Member `cimColor4D operator-(const cimColor4D& c) const`. -/
def sub (x c : cimColor4D) : cimColor4D :=
  ⟨x.r.sub c.r, x.g.sub c.g, x.b.sub c.b, x.a.sub c.a⟩

/-- Member `bool IsBlack() const`, with `epsilon = 10e-3f`. -/
def IsBlack (c : cimColor4D) : Bool :=
  let epsilon : cfloat := cfloat.round (10 / 1000)
  c.r.fabs.lt epsilon && c.g.fabs.lt epsilon && c.b.fabs.lt epsilon && c.a.fabs.lt epsilon

end cimColor4D

/-- Type `struct cimTexel`: `unsigned char b, g, r, a;`, in this order. -/
structure cimTexel where
  b : Byte
  g : Byte
  r : Byte
  a : Byte
  deriving DecidableEq

namespace cimTexel

/-- Member `operator cimColor4D() const`. -/
def toColor4D (t : cimTexel) : cimColor4D :=
  ⟨(cfloat.ofByte t.r).div (cfloat.num 255), (cfloat.ofByte t.g).div (cfloat.num 255),
   (cfloat.ofByte t.b).div (cfloat.num 255), (cfloat.ofByte t.a).div (cfloat.num 255)⟩

end cimTexel

/-- Comparison loop of `strncmp`, from offset `i` on, at most `n` characters left. -/
def strncmpFrom (a b : Mem) (i : Nat) : Nat → Int
  | 0 => 0
  | n + 1 =>
    if a i ≠ b i then ((a i).val : Int) - ((b i).val : Int)
    else if a i = 0 then 0
    else strncmpFrom a b (i + 1) n

/-- Library `strncmp(a, b, n)`: compares at most `n` characters and stops after a
NUL that both strings have at the same offset. -/
def strncmp (a b : Mem) (n : Nat) : Int := strncmpFrom a b 0 n

/-- Type `struct cimTexture`; `achFormatHint` is `char[4]` (offsets 0 to 3) and
`pcData` is either NULL or the array it points to. -/
structure cimTexture where
  mWidth : Nat
  mHeight : Nat
  achFormatHint : Mem
  pcData : Option (List cimTexel)

namespace cimTexture

/-- Constructor `cimTexture()`. -/
def ctor (raw : Mem) : cimTexture :=
  { mWidth := 0
    mHeight := 0
    achFormatHint := store (store (store (store raw 1 0) 0 0) 3 0) 2 0
    pcData := none }

/-- Member `bool CheckFormat(const char* s) const`. -/
def CheckFormat (t : cimTexture) (s : CStr) : Bool :=
  (0 : Int) == strncmp t.achFormatHint (cmem s) 3

end cimTexture

/-! ## Scene nodes (`cimModel.h`)

A `cimObject*` is an address, 0 being NULL.  The free store maps each address to
the `cimObject` allocated there, if any.  Running `delete` is a function of the
store that also records, in order, the address of every object it destroys; it
returns `none` when the code has no defined result (an address that holds no
object is deleted) or when the recursion budget `fuel` is used up. -/

/-- Type `struct cimObject`. -/
structure cimObject where
  m_strObjName : StdString
  m_SubObjects : List Nat
  m_Meshes : List Nat
  deriving DecidableEq

/-- The free store. -/
abbrev Heap := Nat → Option cimObject

/-- The free store together with the record of the destructions done so far. -/
structure Store where
  heap : Heap
  destroyed : List Nat

namespace cimObject

/-- Default constructor `cimObject()`. -/
def ctor : cimObject := { m_strObjName := [], m_SubObjects := [], m_Meshes := [] }

/-- The `for` loop of `~cimObject()`: `delete *it` for each element in turn. -/
def deleteEach (del : Nat → Store → Option Store) : List Nat → Store → Option Store
  | [], st => some st
  | p :: its, st =>
    match del p st with
    | none => none
    | some st1 => deleteEach del its st1

/-- Statement `delete p;` for a `cimObject* p`: nothing for NULL; otherwise the
destructor `~cimObject()` of `*p` runs (its loop over `m_SubObjects`, then
`clear()`), and the storage at `p` is released. -/
def delete : Nat → Nat → Store → Option Store
  | 0, _, _ => none
  | fuel + 1, p, st =>
    if p = 0 then some st
    else
      match st.heap p with
      | none => none
      | some o =>
        match deleteEach (delete fuel) o.m_SubObjects st with
        | none => none
        | some st1 =>
          match st1.heap p with
          | none => none
          | some _ =>
            some { heap := fun x => if x = p then none else st1.heap x
                   destroyed := st1.destroyed ++ [p] }

end cimObject

/-- Shape of a sequence of trees: the address of the first root, the trees below
it, and the trees after it. -/
inductive Forest where
  | nil : Forest
  | cons (addr : Nat) (kids : Forest) (rest : Forest) : Forest

namespace Forest

/-- Addresses of the roots, in order. -/
def roots : Forest → List Nat
  | nil => []
  | cons a _ r => a :: roots r

/-- Addresses of all nodes, children before their parent. -/
def nodes : Forest → List Nat
  | nil => []
  | cons a k r => nodes k ++ a :: nodes r

/-- Number of nodes. -/
def size : Forest → Nat
  | nil => 0
  | cons _ k r => size k + 1 + size r

/-- Number of levels. -/
def depth : Forest → Nat
  | nil => 0
  | cons _ k r => max (depth k + 1) (depth r)

/-- The free store holds the trees: every node is a non-NULL address with an
object whose `m_SubObjects` are the roots of the trees below it. -/
def Holds (h : Heap) : Forest → Prop
  | nil => True
  | cons a k r =>
    a ≠ 0 ∧ (h a).map (fun o => o.m_SubObjects) = some (roots k) ∧ Holds h k ∧ Holds h r

end Forest

/-- A free store with four objects: the one at 1 has the children 2 and 3, the
one at 2 has the child 4. -/
def sampleHeap : Heap := fun x =>
  if x = 1 then some ⟨[], [2, 3], []⟩
  else if x = 2 then some ⟨[], [4], [7]⟩
  else if x = 3 then some ⟨[], [], []⟩
  else if x = 4 then some ⟨[], [], []⟩
  else none

/-- The tree that `sampleHeap` holds at address 1. -/
def sampleTree : Forest :=
  .cons 1 (.cons 2 (.cons 4 .nil .nil) (.cons 3 .nil .nil)) .nil

/-! ## Facts about the memory primitives -/

theorem strlen_eq_content_length (sz : CStr) : strlen sz = (content sz).length := by
  induction sz with
  | nil => rfl
  | cons c cs ih =>
    by_cases h : c = 0
    · simp [strlen, content, h]
    · simp [strlen, content, h, ih]

theorem cmem_content (sz : CStr) (i : Nat) (h : i < strlen sz) :
    cmem sz i = (content sz).getD i 0 := by
  induction sz generalizing i with
  | nil => simp [strlen] at h
  | cons c cs ih =>
    by_cases hc : c = 0
    · simp [strlen, hc] at h
    · cases i with
      | zero => simp [cmem, content, hc]
      | succ j =>
        have hj : j < strlen cs := by
          simp [strlen, hc] at h; exact h
        have := ih j hj
        simpa [cmem, content, hc] using this

theorem cmem_strlen (sz : CStr) : cmem sz (strlen sz) = 0 := by
  induction sz with
  | nil => simp [cmem, strlen]
  | cons c cs ih =>
    by_cases hc : c = 0
    · simp [strlen, cmem, hc]
    · simpa [strlen, cmem, hc] using ih

theorem bytes_eq_of_getD (m : Mem) (l : List Byte)
    (h : ∀ i, i < l.length → m i = l.getD i 0) : cimString.bytes m l.length = l := by
  apply List.ext_get
  · simp [cimString.bytes]
  · intro i h1 h2
    have hi : i < l.length := h2
    simp [cimString.bytes, h i hi, List.getD_eq_getElem?_getD, List.getElem?_eq_getElem hi]

theorem store_same (m : Mem) (k : Nat) (c : Byte) : store m k c k = c := by
  simp [store]

theorem store_other (m : Mem) (k i : Nat) (c : Byte) (h : i ≠ k) : store m k c i = m i := by
  simp [store, h]

theorem memcpy_inside (dst src : Mem) (off n i : Nat) (h1 : off ≤ i) (h2 : i < off + n) :
    memcpy dst off src n i = src (i - off) := by
  simp [memcpy, h1, h2]

theorem memcpy_before (dst src : Mem) (off n i : Nat) (h : i < off) :
    memcpy dst off src n i = dst i := by
  have : ¬ off ≤ i := by omega
  simp [memcpy, this]

/-! ## The two branches of each guarded member -/

theorem Set_fits (s : cimString) (c : StdString) (h : c.length ≤ 1023) :
    s.Set c = ⟨c.length, store (memcpy s.data 0 (c_str c) c.length) c.length 0⟩ := by
  have h1 : ¬ c.length > CIM_MAXLEN - 1 := by simp [CIM_MAXLEN]; omega
  simp [cimString.Set, h1]

theorem Set_rejects (s : cimString) (c : StdString) (h : 1023 < c.length) : s.Set c = s := by
  have h1 : c.length > CIM_MAXLEN - 1 := by simp [CIM_MAXLEN]; omega
  simp [cimString.Set, h1]

theorem SetC_fits (s : cimString) (sz : CStr) (h : strlen sz ≤ 1023) :
    s.SetC sz = ⟨strlen sz, store (memcpy s.data 0 (cmem sz) (strlen sz)) (strlen sz) 0⟩ := by
  have h1 : ¬ strlen sz > CIM_MAXLEN - 1 := by simp [CIM_MAXLEN]; omega
  simp [cimString.SetC, h1]

theorem SetC_rejects (s : cimString) (sz : CStr) (h : 1023 < strlen sz) : s.SetC sz = s := by
  have h1 : strlen sz > CIM_MAXLEN - 1 := by simp [CIM_MAXLEN]; omega
  simp [cimString.SetC, h1]

theorem Append_empty (s : cimString) (app : CStr) (h : strlen app = 0) :
    s.Append app = some s := by
  simp [cimString.Append, h]

theorem Append_rejects (s : cimString) (app : CStr)
    (h : CIM_MAXLEN ≤ (s.length + strlen app) % SIZE_MOD) : s.Append app = some s := by
  simp [cimString.Append, h]

theorem Append_fits (s : cimString) (app : CStr) (h0 : strlen app ≠ 0)
    (h : (s.length + strlen app) % SIZE_MOD < CIM_MAXLEN)
    (hb : s.length + (strlen app + 1) ≤ CIM_MAXLEN) :
    s.Append app = some ⟨(s.length + strlen app) % SIZE_MOD,
      memcpy s.data s.length (cmem app) (strlen app + 1)⟩ := by
  have h1 : ¬ CIM_MAXLEN ≤ (s.length + strlen app) % SIZE_MOD := by omega
  simp [cimString.Append, memcpyInto, h0, h1, hb]

theorem Append_no_wrap (s : cimString) (app : CStr) (h0 : strlen app ≠ 0)
    (h : s.length + strlen app ≤ 1023) :
    s.Append app = some ⟨s.length + strlen app,
      memcpy s.data s.length (cmem app) (strlen app + 1)⟩ := by
  have hm : (s.length + strlen app) % SIZE_MOD = s.length + strlen app :=
    Nat.mod_eq_of_lt (by simp [SIZE_MOD]; omega)
  rw [Append_fits s app h0 (by rw [hm]; simp [CIM_MAXLEN]; omega)
    (by simp [CIM_MAXLEN]; omega), hm]

theorem strlen_replicate (n : Nat) (c : Byte) (hc : c ≠ 0) :
    strlen (List.replicate n c) = n := by
  induction n with
  | zero => rfl
  | succ k ih => simp [List.replicate_succ, strlen, hc, ih]

theorem bytes_add (m : Mem) (a b : Nat) :
    cimString.bytes m (a + b) = cimString.bytes m a ++ cimString.bytes (fun j => m (a + j)) b := by
  simp [cimString.bytes, List.range_add, List.map_append, List.map_map, Function.comp_def]

theorem bytes_congr (m m' : Mem) (n : Nat) (h : ∀ i, i < n → m i = m' i) :
    cimString.bytes m n = cimString.bytes m' n := by
  unfold cimString.bytes
  apply List.map_congr_left
  intro i hi
  exact h i (List.mem_range.mp hi)

theorem Inv_ctor (debug : Bool) (raw : Mem) : (cimString.ctor debug raw).Inv := by
  cases debug <;> simp [cimString.Inv, cimString.ctor, CIM_MAXLEN, store, memset]

theorem Inv_Clear (debug : Bool) (s : cimString) : (cimString.Clear debug s).Inv := by
  cases debug <;> simp [cimString.Inv, cimString.Clear, CIM_MAXLEN, store, memset]

theorem Inv_copy (raw : Mem) (r : cimString) : (cimString.copy raw r).Inv := by
  refine ⟨?_, ?_⟩
  · simp only [cimString.copy, CIM_MAXLEN]
    split <;> omega
  · simp [cimString.copy, store]

theorem Inv_ofStdString (raw : Mem) (p : StdString) : (cimString.ofStdString raw p).Inv := by
  refine ⟨?_, ?_⟩
  · simp only [cimString.ofStdString, CIM_MAXLEN]
    split <;> omega
  · simp [cimString.ofStdString, store]

theorem Inv_Set (s : cimString) (c : StdString) (h : s.Inv) : (s.Set c).Inv := by
  by_cases hc : c.length ≤ 1023
  · rw [Set_fits s c hc]
    exact ⟨by simp [CIM_MAXLEN]; omega, store_same _ _ _⟩
  · rw [Set_rejects s c (by omega)]; exact h

theorem Inv_SetC (s : cimString) (sz : CStr) (h : s.Inv) : (s.SetC sz).Inv := by
  by_cases hc : strlen sz ≤ 1023
  · rw [SetC_fits s sz hc]
    exact ⟨by simp [CIM_MAXLEN]; omega, store_same _ _ _⟩
  · rw [SetC_rejects s sz (by omega)]; exact h

theorem Inv_Append (s : cimString) (app : CStr) (hfit : strlen app + CIM_MAXLEN ≤ SIZE_MOD)
    (h : s.Inv) : ∃ s', s.Append app = some s' ∧ s'.Inv := by
  have hlen : s.length < CIM_MAXLEN := h.1
  have hm : (s.length + strlen app) % SIZE_MOD = s.length + strlen app :=
    Nat.mod_eq_of_lt (by omega)
  by_cases h0 : strlen app = 0
  · exact ⟨s, Append_empty s app h0, h⟩
  · by_cases hr : CIM_MAXLEN ≤ s.length + strlen app
    · exact ⟨s, Append_rejects s app (by rw [hm]; exact hr), h⟩
    · refine ⟨_, Append_fits s app h0 (by rw [hm]; omega) (by omega), ?_⟩
      rw [hm]
      refine ⟨show s.length + strlen app < CIM_MAXLEN by omega, ?_⟩
      show memcpy s.data s.length (cmem app) (strlen app + 1) (s.length + strlen app) = 0
      rw [memcpy_inside _ _ _ _ _ (by omega) (by omega), Nat.add_sub_cancel_left]
      exact cmem_strlen app

theorem memcmpFrom_eq_zero (a b : Mem) (n : Nat) :
    ∀ i, memcmpFrom a b i n = 0 ↔ ∀ j, j < n → a (i + j) = b (i + j) := by
  induction n with
  | zero => intro i; simp [memcmpFrom]
  | succ k ih =>
    intro i
    by_cases hab : a i = b i
    · simp only [memcmpFrom, hab, if_true]
      rw [ih (i + 1)]
      constructor
      · intro h j hj
        cases j with
        | zero => simpa using hab
        | succ m =>
          have := h m (by omega)
          rwa [show i + 1 + m = i + (m + 1) by omega] at this
      · intro h j hj
        have := h (j + 1) (by omega)
        rwa [show i + (j + 1) = i + 1 + j by omega] at this
    · simp only [memcmpFrom, hab, if_false]
      constructor
      · intro h
        exfalso
        apply hab
        apply Fin.ext
        omega
      · intro h
        exact absurd (by simpa using h 0 (by omega)) hab

theorem memcmp_eq_zero (a b : Mem) (n : Nat) :
    memcmp a b n = 0 ↔ ∀ j, j < n → a j = b j := by
  unfold memcmp
  rw [memcmpFrom_eq_zero]
  simp

theorem eq_iff (s t : cimString) :
    s.eq t = true ↔ s.length = t.length ∧ ∀ i, i < s.length → s.data i = t.data i := by
  unfold cimString.eq
  rw [Bool.and_eq_true, beq_iff_eq, beq_iff_eq]
  constructor
  · rintro ⟨h1, h2⟩
    exact ⟨h1, (memcmp_eq_zero _ _ _).mp h2.symm⟩
  · rintro ⟨h1, h2⟩
    exact ⟨h1, ((memcmp_eq_zero _ _ _).mpr h2).symm⟩

theorem ofStdString_crops (raw : Mem) (p : StdString) (h : 1023 < p.length) :
    cimString.ofStdString raw p = ⟨1023, store (memcpy raw 0 (c_str p) 1023) 1023 0⟩ := by
  have h1 : p.length ≥ CIM_MAXLEN := by simp [CIM_MAXLEN]; omega
  simp only [cimString.ofStdString, if_pos h1]
  rfl

theorem copy_length (raw : Mem) (r : cimString) : (cimString.copy raw r).length = min r.length 1023 := by
  simp only [cimString.copy, CIM_MAXLEN]
  split <;> omega

theorem copy_data (raw : Mem) (r : cimString) (i : Nat) (h : i < (cimString.copy raw r).length) :
    (cimString.copy raw r).data i = r.data i := by
  simp only [cimString.copy] at h ⊢
  rw [store_other _ _ _ _ (by omega), memcpy_inside _ _ _ _ _ (Nat.zero_le _) (by omega)]
  rfl

/-! ## Properties of `cimString` -/

open cimString

/-- C1: for every string `s` and every content of at most 1023 bytes, after `Set`
(the `std::string` overload with content `c`, the `const char*` overload with the
C string `sz`, whose content is `content sz`) the field `length` is the byte count
of the content, the first `length` bytes read through `C_Str()` are the content,
and the byte at offset `length` is NUL. -/
theorem C1_Set_reads_back (s : cimString) (c : StdString) (sz : CStr)
    (hc : c.length ≤ 1023) (hz : (content sz).length ≤ 1023) :
    ((s.Set c).length = c.length
      ∧ bytes (s.Set c).C_Str (s.Set c).length = c
      ∧ (s.Set c).C_Str (s.Set c).length = 0)
    ∧ ((s.SetC sz).length = (content sz).length
      ∧ bytes (s.SetC sz).C_Str (s.SetC sz).length = content sz
      ∧ (s.SetC sz).C_Str (s.SetC sz).length = 0) := by
  have hz' : strlen sz ≤ 1023 := by rw [strlen_eq_content_length]; exact hz
  rw [Set_fits s c hc, SetC_fits s sz hz']
  refine ⟨⟨rfl, ?_, ?_⟩, ?_, ?_, ?_⟩
  · apply bytes_eq_of_getD
    intro i hi
    have hne : i ≠ c.length := by omega
    simp [C_Str, store_other _ _ _ _ hne, memcpy, hi, c_str]
  · simp [C_Str, store_same]
  · exact strlen_eq_content_length sz
  · show bytes _ (strlen sz) = _
    rw [strlen_eq_content_length]
    apply bytes_eq_of_getD
    intro i hi
    have hi' : i < strlen sz := by rw [strlen_eq_content_length]; exact hi
    have hne : i ≠ strlen sz := by omega
    simp only [C_Str, ← strlen_eq_content_length]
    rw [store_other _ _ _ _ hne, memcpy_inside _ _ _ _ _ (Nat.zero_le _) (by omega)]
    simpa using cmem_content sz i hi'
  · simp [C_Str, store_same]

/-- Witness of C1: storage holding 7 everywhere, then `Set` of the two bytes "hi"
and of the C string "hi" followed by NUL and a stray byte. -/
theorem C1_Set_reads_back_witness :
    (([104, 105] : StdString).length ≤ 1023 ∧ (content [104, 105, 0, 33]).length ≤ 1023)
    ∧ ((cimString.mk 5 (fun _ => 7)).Set [104, 105]).length = 2
    ∧ bytes ((cimString.mk 5 (fun _ => 7)).SetC [104, 105, 0, 33]).C_Str
        ((cimString.mk 5 (fun _ => 7)).SetC [104, 105, 0, 33]).length = [104, 105] :=
  ⟨⟨by decide, by decide⟩,
   (C1_Set_reads_back ⟨5, fun _ => 7⟩ [104, 105] [104, 105, 0, 33] (by decide) (by decide)).1.1,
   (C1_Set_reads_back ⟨5, fun _ => 7⟩ [104, 105] [104, 105, 0, 33] (by decide) (by decide)).2.2.1⟩

/-- C2: for every string `s`, `Set` and assignment of a content longer than 1023
bytes (either overload) return `s` itself: `length` and the whole buffer are as
before. -/
theorem C2_Set_overflow_noop (s : cimString) (c : StdString) (sz : CStr)
    (hc : 1023 < c.length) (hz : 1023 < strlen sz) :
    s.Set c = s ∧ s.SetC sz = s ∧ s.assign c = s ∧ s.assignC sz = s :=
  ⟨Set_rejects s c hc, SetC_rejects s sz hz, Set_rejects s c hc, SetC_rejects s sz hz⟩

/-- Witness of C2: contents of 1024 bytes 'A' leave a string of length 5 as it was. -/
theorem C2_Set_overflow_noop_witness :
    (cimString.mk 5 (fun _ => 7)).Set (List.replicate 1024 65) = cimString.mk 5 (fun _ => 7)
    ∧ (cimString.mk 5 (fun _ => 7)).assignC (List.replicate 1024 65)
        = cimString.mk 5 (fun _ => 7) :=
  ⟨(C2_Set_overflow_noop ⟨5, fun _ => 7⟩ (List.replicate 1024 65) (List.replicate 1024 65)
      (by rw [List.length_replicate]; decide)
      (by rw [strlen_replicate _ _ (by decide)]; decide)).1,
   (C2_Set_overflow_noop ⟨5, fun _ => 7⟩ (List.replicate 1024 65) (List.replicate 1024 65)
      (by rw [List.length_replicate]; decide)
      (by rw [strlen_replicate _ _ (by decide)]; decide)).2.2.2⟩

/-- C4: for every string `s` that satisfies the invariant and every non-empty C
string `app` with `length + strlen(app) <= 1023`, `Append` returns a state in which
the new `length` is the old one plus `strlen(app)`, the first old-`length` bytes
are as before, the bytes of `app` follow them, the byte at the new `length` is
NUL, and `C_Str()` reads back the old content followed by the content of `app`. -/
theorem C4_Append_concat (s : cimString) (app : CStr) (_hinv : Inv s)
    (h0 : strlen app ≠ 0) (h : s.length + strlen app ≤ 1023) :
    ∃ s', s.Append app = some s'
      ∧ s'.length = s.length + strlen app
      ∧ (∀ i, i < s.length → s'.data i = s.data i)
      ∧ (∀ j, j < strlen app → s'.data (s.length + j) = (content app).getD j 0)
      ∧ s'.data s'.length = 0
      ∧ bytes s'.C_Str s'.length = bytes s.C_Str s.length ++ content app := by
  refine ⟨_, Append_no_wrap s app h0 h, ?_⟩
  have hin : ∀ j, j < strlen app →
      memcpy s.data s.length (cmem app) (strlen app + 1) (s.length + j)
        = (content app).getD j 0 := by
    intro j hj
    rw [memcpy_inside _ _ _ _ _ (by omega) (by omega), Nat.add_sub_cancel_left]
    exact cmem_content app j hj
  refine ⟨rfl, ?_, hin, ?_, ?_⟩
  · intro i hi
    exact memcpy_before _ _ _ _ _ hi
  · show memcpy s.data s.length (cmem app) (strlen app + 1) (s.length + strlen app) = 0
    rw [memcpy_inside _ _ _ _ _ (by omega) (by omega), Nat.add_sub_cancel_left]
    exact cmem_strlen app
  · show bytes (memcpy s.data s.length (cmem app) (strlen app + 1)) (s.length + strlen app) = _
    rw [bytes_add]
    congr 1
    · exact bytes_congr _ _ _ (fun i hi => memcpy_before _ _ _ _ _ hi)
    · rw [strlen_eq_content_length] at hin ⊢
      exact bytes_eq_of_getD _ _ hin

/-- Witness of C4: "hi" (bytes 104, 105, then NUL) takes the C string "AB". -/
theorem C4_Append_concat_witness :
    Inv (cimString.mk 2 (fun i => if i = 0 then 104 else if i = 1 then 105 else 0))
    ∧ ∃ s', (cimString.mk 2 (fun i => if i = 0 then 104 else if i = 1 then 105 else 0)).Append
          [65, 66] = some s'
        ∧ s'.length = 2 + strlen [65, 66]
        ∧ bytes s'.C_Str s'.length
          = bytes (cimString.mk 2
              (fun i => if i = 0 then 104 else if i = 1 then 105 else 0)).C_Str 2
            ++ content [65, 66] :=
  ⟨by decide,
   match C4_Append_concat ⟨2, fun i => if i = 0 then 104 else if i = 1 then 105 else 0⟩
      [65, 66] (by decide) (by decide) (by decide) with
   | ⟨s', h1, h2, _, _, _, h6⟩ => ⟨s', h1, h2, h6⟩⟩

/-- C5: the invariant `length < 1024 and data[length] = 0` holds after the default
constructor, the copy constructor (whatever the source, its `length` field may be
1024 or more) and the `std::string` constructor, and every mutating member keeps
it: both `Set` overloads, both assignments, `Append` and `Clear`, for every
argument (for `Append`, every C string that fits a 64-bit address space next to
the 1024-byte buffer; the call then returns a state, and that state satisfies the
invariant). -/
theorem C5_invariant :
    (∀ (debug : Bool) (raw : Mem), Inv (ctor debug raw))
    ∧ (∀ (raw : Mem) (rOther : cimString), Inv (copy raw rOther))
    ∧ (∀ (raw : Mem) (pString : StdString), Inv (ofStdString raw pString))
    ∧ (∀ (s : cimString) (pString : StdString), Inv s → Inv (s.Set pString))
    ∧ (∀ (s : cimString) (sz : CStr), Inv s → Inv (s.SetC sz))
    ∧ (∀ (s : cimString) (pString : StdString), Inv s → Inv (s.assign pString))
    ∧ (∀ (s : cimString) (sz : CStr), Inv s → Inv (s.assignC sz))
    ∧ (∀ (s : cimString) (app : CStr), strlen app + CIM_MAXLEN ≤ SIZE_MOD →
        Inv s → ∃ s', s.Append app = some s' ∧ Inv s')
    ∧ (∀ (debug : Bool) (s : cimString), Inv s → Inv (Clear debug s)) :=
  ⟨Inv_ctor, Inv_copy, Inv_ofStdString, Inv_Set, Inv_SetC, Inv_Set, Inv_SetC, Inv_Append,
   fun debug s _ => Inv_Clear debug s⟩

/-- Witness of C5: the string "hi" satisfies the invariant and still does after
`Set`, after `Append` of "AB" and after `Clear`; a copy of a source whose `length`
field is 5000 satisfies it too. -/
theorem C5_invariant_witness :
    Inv (cimString.mk 2 (fun i => if i = 0 then 104 else if i = 1 then 105 else 0))
    ∧ strlen [65, 66] + CIM_MAXLEN ≤ SIZE_MOD
    ∧ Inv ((cimString.mk 2 (fun i => if i = 0 then 104 else if i = 1 then 105 else 0)).Set
        [65, 66, 67])
    ∧ (∃ s', (cimString.mk 2 (fun i => if i = 0 then 104 else if i = 1 then 105 else 0)).Append
        [65, 66] = some s' ∧ Inv s')
    ∧ Inv (Clear true (cimString.mk 2 (fun i => if i = 0 then 104 else if i = 1 then 105 else 0)))
    ∧ Inv (copy (fun _ => 7) (cimString.mk 5000 (fun _ => 9))) :=
  ⟨by decide, by decide,
   C5_invariant.2.2.2.1 _ [65, 66, 67] (by decide),
   C5_invariant.2.2.2.2.2.2.2.1 _ [65, 66] (by decide) (by decide),
   C5_invariant.2.2.2.2.2.2.2.2 true _ (by decide),
   C5_invariant.2.1 (fun _ => 7) ⟨5000, fun _ => 9⟩⟩

/-- C6 as stated fails: built from a `std::string` of 1024 bytes 'A', the string
has `length` 1023 and holds 'A' at offset 0, whereas a default-constructed string
to which the same `std::string` is assigned has `length` 0. -/
theorem C6_ofStdString_counterexample :
    1023 < (List.replicate 1024 (65 : Byte)).length
    ∧ (ofStdString (fun _ => 0) (List.replicate 1024 65)).length = 1023
    ∧ (ofStdString (fun _ => 0) (List.replicate 1024 65)).data 0 = 65
    ∧ ((ctor false (fun _ => 0)).assign (List.replicate 1024 65)).length = 0 := by
  have hp : 1023 < (List.replicate 1024 (65 : Byte)).length := by
    rw [List.length_replicate]; decide
  refine ⟨hp, ?_, ?_, ?_⟩
  · rw [ofStdString_crops _ _ hp]
  · rw [ofStdString_crops _ _ hp]
    rfl
  · rw [cimString.assign, Set_rejects _ _ hp]
    rfl

/-- C6, amended: constructing from a `std::string` longer than 1023 bytes
truncates it, unlike assignment: the new string has `length` 1023, its first 1023
bytes are the first 1023 bytes of the argument and the byte at offset 1023 is NUL;
assigning the same argument to a default-constructed string leaves that string as
constructed (empty). -/
theorem C6_ofStdString_truncates (raw : Mem) (p : StdString) (h : 1023 < p.length) :
    (ofStdString raw p).length = 1023
    ∧ bytes (ofStdString raw p).C_Str 1023 = p.take 1023
    ∧ (ofStdString raw p).C_Str 1023 = 0
    ∧ (∀ (debug : Bool) (raw0 : Mem), (ctor debug raw0).assign p = ctor debug raw0) := by
  rw [ofStdString_crops raw p h]
  refine ⟨rfl, ?_, by simp [C_Str, store], fun debug raw0 => Set_rejects _ p h⟩
  have hl : (p.take 1023).length = 1023 := by rw [List.length_take]; omega
  have hb := bytes_eq_of_getD (store (memcpy raw 0 (c_str p) 1023) 1023 0) (p.take 1023) (by
    intro i hi
    rw [hl] at hi
    rw [store_other _ _ _ _ (by omega), memcpy_inside _ _ _ _ _ (Nat.zero_le _) (by omega)]
    simp [c_str, List.getD_eq_getElem?_getD, List.getElem?_take, hi])
  rwa [hl] at hb

/-- Witness of C6 (amended): the `std::string` of 1024 bytes 'A'. -/
theorem C6_ofStdString_truncates_witness :
    (ofStdString (fun _ => 7) (List.replicate 1024 65)).length = 1023
    ∧ (ofStdString (fun _ => 7) (List.replicate 1024 65)).C_Str 1023 = 0 :=
  ⟨(C6_ofStdString_truncates (fun _ => 7) (List.replicate 1024 65)
      (by rw [List.length_replicate]; decide)).1,
   (C6_ofStdString_truncates (fun _ => 7) (List.replicate 1024 65)
      (by rw [List.length_replicate]; decide)).2.2.1⟩

/-- C7: for every source `r`, the copy has `length = min(r.length, 1023)`, its
first `length` bytes are those of `r`, and the byte at offset `length` is NUL; so
for every `r` with `r.length <= 1023` (all that the invariant is needed for) the
copy compares equal to `r` under `operator==`. -/
theorem C7_copy (raw : Mem) (r : cimString) :
    (copy raw r).length = min r.length 1023
    ∧ (∀ i, i < (copy raw r).length → (copy raw r).data i = r.data i)
    ∧ (copy raw r).data (copy raw r).length = 0
    ∧ (r.length ≤ 1023 → (copy raw r).eq r = true) := by
  refine ⟨copy_length raw r, copy_data raw r, (Inv_copy raw r).2, ?_⟩
  intro h
  rw [eq_iff]
  have hl : (copy raw r).length = r.length := by rw [copy_length]; omega
  exact ⟨hl, copy_data raw r⟩

/-- Witness of C7: copying the string "hi" into storage that held 7 everywhere. -/
theorem C7_copy_witness :
    (cimString.mk 2 (fun i => if i = 0 then 104 else if i = 1 then 105 else 0)).length ≤ 1023
    ∧ (copy (fun _ => 7)
        (cimString.mk 2 (fun i => if i = 0 then 104 else if i = 1 then 105 else 0))).eq
        (cimString.mk 2 (fun i => if i = 0 then 104 else if i = 1 then 105 else 0)) = true :=
  ⟨by decide,
   (C7_copy (fun _ => 7)
      ⟨2, fun i => if i = 0 then 104 else if i = 1 then 105 else 0⟩).2.2.2 (by decide)⟩

/-- C8: for all strings `s` and `t`, `s == t` is true exactly when the two
`length` fields are equal and the first `s.length` bytes of the two buffers are
identical, whatever lies at later offsets; `s != t` is the negation of `s == t`. -/
theorem C8_eq_bytewise (s t : cimString) :
    (s.eq t = true ↔ s.length = t.length ∧ bytes s.data s.length = bytes t.data s.length)
    ∧ s.ne t = !(s.eq t) := by
  constructor
  · rw [eq_iff]
    constructor
    · rintro ⟨h1, h2⟩
      exact ⟨h1, bytes_congr _ _ _ h2⟩
    · rintro ⟨h1, h2⟩
      refine ⟨h1, fun i hi => ?_⟩
      have := congrArg (fun l => l.getD i 0) h2
      simpa [bytes, List.getD_eq_getElem?_getD, List.getElem?_map, List.getElem?_range hi]
        using this
  · simp [cimString.ne, cimString.eq, bne, Bool.not_and]

/-- C9: for every string `s`, `Append("")` returns `s` itself. -/
theorem C9_Append_empty_noop (s : cimString) : s.Append [] = some s :=
  Append_empty s [] rfl

/-- C10: for every string `s` (in either build), after `Clear` the `length` is 0
and the byte at offset 0 is NUL, and the result compares equal under `operator==`
to any default-constructed string. -/
theorem C10_Clear_empty (debug : Bool) (s : cimString) :
    (Clear debug s).length = 0
    ∧ (Clear debug s).C_Str 0 = 0
    ∧ (∀ (debug0 : Bool) (raw : Mem), (Clear debug s).eq (ctor debug0 raw) = true) := by
  refine ⟨rfl, (Inv_Clear debug s).2, fun debug0 raw => ?_⟩
  rw [eq_iff]
  refine ⟨rfl, fun i hi => ?_⟩
  exact absurd hi (Nat.not_lt_zero i)

/-! ## Properties of colours and texels -/

theorem cfloat_ne_eq_not (x y : cfloat) : x.ne y = !(x.eq y) := by
  cases x <;> cases y <;> simp [cfloat.ne, cfloat.eq, bne]

theorem cfloat_eq_true_iff (x y : cfloat) : x.eq y = true ↔ ∃ q, x = cfloat.num q ∧ y = cfloat.num q := by
  cases x with
  | nan => simp [cfloat.eq]
  | num p =>
    cases y with
    | nan => simp [cfloat.eq]
    | num q =>
      simp only [cfloat.eq, beq_iff_eq, cfloat.num.injEq]
      constructor
      · intro h; exact ⟨p, rfl, h.symm⟩
      · rintro ⟨k, h1, h2⟩; rw [h1, h2]

theorem cfloat_byte_div (c : Byte) :
    (cfloat.ofByte c).div (cfloat.num 255) = cfloat.round ((c.val : ℚ) / 255) := by
  simp [cfloat.ofByte, cfloat.div]

theorem cfloat_fabs_lt (q e : ℚ) : (cfloat.num q).fabs.lt (cfloat.num e) = true ↔ |q| < e := by
  simp [cfloat.fabs, cfloat.lt]

/-! ### Rounding to `float` -/

theorem log2_eq (q : ℚ) (e : ℤ) (hq : 0 < q) (h1 : (2 : ℚ) ^ e ≤ q)
    (h2 : q < (2 : ℚ) ^ (e + 1)) : Int.log 2 q = e := by
  have hb : 1 < (2 : ℕ) := by norm_num
  have a1 : e ≤ Int.log 2 q := by
    apply (Int.zpow_le_iff_le_log hb hq).mp
    simpa using h1
  have a2 : Int.log 2 q < e + 1 := by
    apply (Int.lt_zpow_iff_log_lt hb hq).mp
    simpa using h2
  omega

theorem roundHalfEven_down (x : ℚ) (m : ℕ) (h1 : (m : ℚ) ≤ x) (h2 : x < m + 1 / 2) :
    roundHalfEven x = m := by
  have hx : 0 ≤ x := le_trans (Nat.cast_nonneg m) h1
  have hf : ⌊x⌋₊ = m := (Nat.floor_eq_iff hx).mpr ⟨h1, by linarith⟩
  unfold roundHalfEven
  simp only [hf]
  rw [if_neg]
  rintro (h | ⟨h, _⟩) <;> linarith

theorem roundHalfEven_up (x : ℚ) (m : ℕ) (h1 : (m : ℚ) + 1 / 2 < x) (h2 : x < m + 1) :
    roundHalfEven x = m + 1 := by
  have hx : 0 ≤ x := by have := Nat.cast_nonneg (α := ℚ) m; linarith
  have hf : ⌊x⌋₊ = m := (Nat.floor_eq_iff hx).mpr ⟨by linarith, h2⟩
  unfold roundHalfEven
  simp only [hf]
  rw [if_pos]
  left; linarith

theorem roundHalfEven_near (x : ℚ) (hx : 0 ≤ x) : |(roundHalfEven x : ℚ) - x| ≤ 1 / 2 := by
  have h1 : (⌊x⌋₊ : ℚ) ≤ x := Nat.floor_le hx
  have h2 : x < ⌊x⌋₊ + 1 := Nat.lt_floor_add_one x
  unfold roundHalfEven
  simp only
  split_ifs with h
  · rw [abs_le]
    push_cast
    rcases h with h | ⟨h, _⟩ <;> constructor <;> linarith
  · rw [abs_le]
    have : x - ⌊x⌋₊ ≤ 1 / 2 := by
      by_contra hc
      push_neg at hc
      exact h (Or.inl hc)
    constructor <;> linarith

theorem round_eval (q : ℚ) (e : ℤ) (m : ℕ) (hq : 0 < q) (h1 : (2 : ℚ) ^ e ≤ q)
    (h2 : q < (2 : ℚ) ^ (e + 1)) (he : -126 ≤ e)
    (hm : roundHalfEven (q / 2 ^ (e - 23)) = m) (hv : (m : ℚ) * 2 ^ (e - 23) < 2 ^ 128) :
    cfloat.round q = cfloat.num ((m : ℚ) * 2 ^ (e - 23)) := by
  have hl : Int.log 2 q = e := log2_eq q e hq h1 h2
  unfold cfloat.round
  simp only [abs_of_pos hq, hl, max_eq_left he, hm]
  rw [if_neg (ne_of_gt hq), if_neg (not_le.mpr hv), if_neg (not_lt.mpr (le_of_lt hq))]

theorem round_unit (q : ℚ) (h0 : 0 ≤ q) (h1 : q ≤ 1) :
    ∃ v : ℚ, cfloat.round q = cfloat.num v ∧ |v - q| ≤ 1 / 2 ^ 24 := by
  rcases eq_or_lt_of_le h0 with hz | hq
  · refine ⟨0, ?_, ?_⟩
    · rw [← hz]; simp [cfloat.round]
    · rw [← hz]; norm_num
  · have hlog : Int.log 2 q ≤ 0 := by
      have := Int.log_mono_right (b := 2) hq h1
      rwa [Int.log_one_right] at this
    set e : ℤ := max (Int.log 2 q) (-126) with he
    have he0 : e ≤ 0 := max_le hlog (by norm_num)
    set ulp : ℚ := 2 ^ (e - 23) with hulp
    have hup : 0 < ulp := zpow_pos (by norm_num) _
    have hule : ulp ≤ 1 / 2 ^ 23 := by
      have : ulp ≤ (2 : ℚ) ^ (-23 : ℤ) := zpow_le_zpow_right₀ (by norm_num) (by omega)
      refine le_trans this (le_of_eq ?_)
      norm_num
    have hx : 0 ≤ q / ulp := div_nonneg h0 (le_of_lt hup)
    have herr := roundHalfEven_near (q / ulp) hx
    have hv : |(roundHalfEven (q / ulp) : ℚ) * ulp - q| ≤ 1 / 2 ^ 24 := by
      have e1 : (roundHalfEven (q / ulp) : ℚ) * ulp - q
          = ((roundHalfEven (q / ulp) : ℚ) - q / ulp) * ulp := by
        field_simp
      rw [e1, abs_mul, abs_of_pos hup]
      calc |(roundHalfEven (q / ulp) : ℚ) - q / ulp| * ulp ≤ 1 / 2 * (1 / 2 ^ 23) :=
            mul_le_mul herr hule (le_of_lt hup) (by norm_num)
        _ = 1 / 2 ^ 24 := by norm_num
    refine ⟨(roundHalfEven (q / ulp) : ℚ) * ulp, ?_, hv⟩
    have hlt : ¬ (2 : ℚ) ^ 128 ≤ (roundHalfEven (q / ulp) : ℚ) * ulp := by
      have := (abs_le.mp hv).2
      have h24 : (1 : ℚ) / 2 ^ 24 ≤ 1 := by norm_num
      have h128 : (2 : ℚ) < 2 ^ 128 := by norm_num
      intro hc
      linarith
    unfold cfloat.round
    simp only [abs_of_pos hq, ← he, ← hulp]
    rw [if_neg (ne_of_gt hq), if_neg hlt, if_neg (not_lt.mpr h0)]

theorem round_zero : cfloat.round 0 = cfloat.num 0 := by
  simp [cfloat.round]

theorem round_one : cfloat.round 1 = cfloat.num 1 := by
  have h := round_eval 1 0 8388608 (by norm_num) (by norm_num) (by norm_num)
    (by norm_num) (roundHalfEven_down _ 8388608 (by norm_num) (by norm_num)) (by norm_num)
  rw [h]; norm_num

theorem round_10_255 : cfloat.round (10 / 255) = cfloat.num (10526881 / 2 ^ 28) := by
  have h := round_eval (10 / 255) (-5) 10526881 (by norm_num) (by norm_num) (by norm_num)
    (by norm_num) (roundHalfEven_up _ 10526880 (by norm_num) (by norm_num)) (by norm_num)
  rw [h]; norm_num

theorem round_20_255 : cfloat.round (20 / 255) = cfloat.num (10526881 / 2 ^ 27) := by
  have h := round_eval (20 / 255) (-4) 10526881 (by norm_num) (by norm_num) (by norm_num)
    (by norm_num) (roundHalfEven_up _ 10526880 (by norm_num) (by norm_num)) (by norm_num)
  rw [h]; norm_num

theorem round_30_255 : cfloat.round (30 / 255) = cfloat.num (15790321 / 2 ^ 27) := by
  have h := round_eval (30 / 255) (-4) 15790321 (by norm_num) (by norm_num) (by norm_num)
    (by norm_num) (roundHalfEven_up _ 15790320 (by norm_num) (by norm_num)) (by norm_num)
  rw [h]; norm_num

theorem round_40_255 : cfloat.round (40 / 255) = cfloat.num (10526881 / 2 ^ 26) := by
  have h := round_eval (40 / 255) (-3) 10526881 (by norm_num) (by norm_num) (by norm_num)
    (by norm_num) (roundHalfEven_up _ 10526880 (by norm_num) (by norm_num)) (by norm_num)
  rw [h]; norm_num

theorem round_epsilon : cfloat.round (10 / 1000) = cfloat.num (5368709 / 536870912) := by
  have h := round_eval (10 / 1000) (-7) 10737418 (by norm_num) (by norm_num) (by norm_num)
    (by norm_num) (roundHalfEven_down _ 10737418 (by norm_num) (by norm_num)) (by norm_num)
  rw [h]; norm_num

theorem toColor4D_eq (t : cimTexel) : t.toColor4D =
    ⟨cfloat.round ((t.r.val : ℚ) / 255), cfloat.round ((t.g.val : ℚ) / 255),
     cfloat.round ((t.b.val : ℚ) / 255), cfloat.round ((t.a.val : ℚ) / 255)⟩ := by
  simp only [cimTexel.toColor4D, cfloat_byte_div]

theorem toColor4D_sample : (cimTexel.mk 10 20 30 40).toColor4D =
    ⟨cfloat.num (15790321 / 2 ^ 27), cfloat.num (10526881 / 2 ^ 27),
     cfloat.num (10526881 / 2 ^ 28), cfloat.num (10526881 / 2 ^ 26)⟩ := by
  have v10 : (((10 : Byte).val : ℕ) : ℚ) = 10 := by rw [show (10 : Byte).val = 10 from rfl]; norm_num
  have v20 : (((20 : Byte).val : ℕ) : ℚ) = 20 := by rw [show (20 : Byte).val = 20 from rfl]; norm_num
  have v30 : (((30 : Byte).val : ℕ) : ℚ) = 30 := by rw [show (30 : Byte).val = 30 from rfl]; norm_num
  have v40 : (((40 : Byte).val : ℕ) : ℚ) = 40 := by rw [show (40 : Byte).val = 40 from rfl]; norm_num
  rw [toColor4D_eq]
  simp only [v10, v20, v30, v40, round_10_255, round_20_255, round_30_255, round_40_255]

/-- C11 as stated fails: for the texel with r = 30 the red component of the
converted colour is the `float` 15790321/2^27, which is not the number 30/255. -/
theorem C11_texel_to_color_counterexample :
    (cimTexel.mk 10 20 30 40).toColor4D.r = cfloat.num (15790321 / 2 ^ 27)
    ∧ (cimTexel.mk 10 20 30 40).toColor4D.r ≠ cfloat.num (30 / 255) := by
  rw [toColor4D_sample]
  refine ⟨rfl, ?_⟩
  show cfloat.num (15790321 / 2 ^ 27) ≠ cfloat.num (30 / 255)
  intro h
  have h' : (15790321 : ℚ) / 2 ^ 27 = 30 / 255 := cfloat.num.inj h
  norm_num at h'

/-- C11, amended: for every texel, whose channels are stored in the order b, g, r,
a, the conversion to `cimColor4D` yields the colour whose components are `r/255`,
`g/255`, `b/255`, `a/255`, in this order, each rounded to the nearest `float`,
which lies within `2^-24` of the quotient (no channel is swapped: the texel with
r = 30, g = 20, b = 10, a = 40 gives the floats of 30/255, 20/255, 10/255,
40/255); a channel value 0 gives exactly 0 and a channel value 255 gives exactly
1. -/
theorem C11_texel_to_color :
    (∀ t : cimTexel, t.toColor4D =
      ⟨cfloat.round ((t.r.val : ℚ) / 255), cfloat.round ((t.g.val : ℚ) / 255),
       cfloat.round ((t.b.val : ℚ) / 255), cfloat.round ((t.a.val : ℚ) / 255)⟩)
    ∧ (∀ c : Byte, ∃ v : ℚ, cfloat.round ((c.val : ℚ) / 255) = cfloat.num v
        ∧ |v - (c.val : ℚ) / 255| ≤ 1 / 2 ^ 24)
    ∧ (cimTexel.mk 10 20 30 40).toColor4D =
      ⟨cfloat.num (15790321 / 2 ^ 27), cfloat.num (10526881 / 2 ^ 27),
       cfloat.num (10526881 / 2 ^ 28), cfloat.num (10526881 / 2 ^ 26)⟩
    ∧ (cimTexel.mk 0 0 0 0).toColor4D = ⟨cfloat.num 0, cfloat.num 0, cfloat.num 0, cfloat.num 0⟩
    ∧ (cimTexel.mk 255 255 255 255).toColor4D
        = ⟨cfloat.num 1, cfloat.num 1, cfloat.num 1, cfloat.num 1⟩ := by
  have v0 : ((0 : Byte).val : ℚ) = 0 := by norm_num
  have v255 : (((255 : Byte).val : ℕ) : ℚ) = 255 := by
    rw [show (255 : Byte).val = 255 from rfl]; norm_num
  refine ⟨toColor4D_eq, ?_, toColor4D_sample, ?_, ?_⟩
  · intro c
    have hc : (c.val : ℚ) ≤ 255 := by
      have : c.val ≤ 255 := by omega
      exact_mod_cast this
    exact round_unit _ (div_nonneg (Nat.cast_nonneg _) (by norm_num))
      (by rw [div_le_one (by norm_num)]; exact hc)
  · rw [toColor4D_eq]; simp only [v0, zero_div, round_zero]
  · rw [toColor4D_eq]; simp only [v255]
    rw [show (255 : ℚ) / 255 = 1 by norm_num, round_one]

/-- C13: over exact channel arithmetic, `(A + B) - B == A` for all colours `A`
and `B` with number channels, for `cimColor3D` and `cimColor4D` alike. -/
theorem C13_add_sub_cancel :
    (∀ r g b r' g' b' : ℚ,
      (((cimColor3D.mk (.num r) (.num g) (.num b)).add
          (cimColor3D.mk (.num r') (.num g') (.num b'))).sub
          (cimColor3D.mk (.num r') (.num g') (.num b'))).eq
        (cimColor3D.mk (.num r) (.num g) (.num b)) = true)
    ∧ (∀ r g b a r' g' b' a' : ℚ,
      (((cimColor4D.mk (.num r) (.num g) (.num b) (.num a)).add
          (cimColor4D.mk (.num r') (.num g') (.num b') (.num a'))).sub
          (cimColor4D.mk (.num r') (.num g') (.num b') (.num a'))).eq
        (cimColor4D.mk (.num r) (.num g) (.num b) (.num a)) = true) := by
  constructor
  · intro r g b r' g' b'
    simp [cimColor3D.eq, cimColor3D.add, cimColor3D.sub, cfloat.add, cfloat.sub, cfloat.eq]
  · intro r g b a r' g' b' a'
    simp [cimColor4D.eq, cimColor4D.add, cimColor4D.sub, cfloat.add, cfloat.sub, cfloat.eq]

/-- C14 as stated fails: a colour whose `r` channel is NaN does not compare equal
to itself, and `!=` is true of it and itself. -/
theorem C14_color_eq_counterexample :
    (cimColor4D.mk .nan (.num 0) (.num 0) (.num 0)).eq
        (cimColor4D.mk .nan (.num 0) (.num 0) (.num 0)) = false
    ∧ (cimColor4D.mk .nan (.num 0) (.num 0) (.num 0)).ne
        (cimColor4D.mk .nan (.num 0) (.num 0) (.num 0)) = true := by
  constructor <;> rfl

/-- C14, amended: `cimColor4D` equality has no tolerance.  For all number (not
NaN) channel values `cimColor4D(r,g,b,a) == cimColor4D(r,g,b,a)` is true; two
colours that differ in any one channel compare unequal (`==` false, `!=` true);
and `!=` is the negation of `==` for all channel values, NaN included. -/
theorem C14_color_eq_exact :
    (∀ r g b a : ℚ,
      (cimColor4D.mk (.num r) (.num g) (.num b) (.num a)).eq
        (cimColor4D.mk (.num r) (.num g) (.num b) (.num a)) = true)
    ∧ (∀ c d : cimColor4D, (c.r ≠ d.r ∨ c.g ≠ d.g ∨ c.b ≠ d.b ∨ c.a ≠ d.a) →
        c.eq d = false ∧ c.ne d = true)
    ∧ (∀ c d : cimColor4D, c.ne d = !(c.eq d)) := by
  have hne : ∀ c d : cimColor4D, c.ne d = !(c.eq d) := by
    intro c d
    simp [cimColor4D.ne, cimColor4D.eq, cfloat_ne_eq_not, Bool.not_and]
  have hsame : ∀ x y : cfloat, x.eq y = true → x = y := by
    intro x y h
    obtain ⟨q, hx, hy⟩ := (cfloat_eq_true_iff x y).mp h
    rw [hx, hy]
  refine ⟨?_, ?_, hne⟩
  · intro r g b a
    simp [cimColor4D.eq, cfloat.eq]
  · intro c d hd
    have hf : c.eq d = false := by
      by_contra hcon
      have ht : c.eq d = true := by simpa using hcon
      simp only [cimColor4D.eq, Bool.and_eq_true] at ht
      obtain ⟨⟨⟨h1, h2⟩, h3⟩, h4⟩ := ht
      rcases hd with h | h | h | h
      · exact h (hsame _ _ h1)
      · exact h (hsame _ _ h2)
      · exact h (hsame _ _ h3)
      · exact h (hsame _ _ h4)
    exact ⟨hf, by rw [hne, hf]; rfl⟩

/-- Witness of C14 (amended): two colours that differ in the alpha channel only. -/
theorem C14_color_eq_exact_witness :
    (cimColor4D.mk (.num 1) (.num 2) (.num 3) (.num 4)).eq
        (cimColor4D.mk (.num 1) (.num 2) (.num 3) (.num 5)) = false
    ∧ (cimColor4D.mk (.num 1) (.num 2) (.num 3) (.num 4)).ne
        (cimColor4D.mk (.num 1) (.num 2) (.num 3) (.num 5)) = true :=
  C14_color_eq_exact.2.1 ⟨.num 1, .num 2, .num 3, .num 4⟩ ⟨.num 1, .num 2, .num 3, .num 5⟩
    (Or.inr (Or.inr (Or.inr (by simp))))

/-- C15 as stated fails: the channel value 5368709/2^29, which is the `float`
`10e-3f` itself, is below 1/100 in absolute value, yet a colour with this red
channel and the other channels 0 is not black, for `cimColor3D` and `cimColor4D`
alike. -/
theorem C15_IsBlack_counterexample :
    |(5368709 / 536870912 : ℚ)| < 1 / 100 ∧ |(0 : ℚ)| < 1 / 100
    ∧ (cimColor3D.mk (.num (5368709 / 536870912)) (.num 0) (.num 0)).IsBlack = false
    ∧ (cimColor4D.mk (.num (5368709 / 536870912)) (.num 0) (.num 0) (.num 0)).IsBlack
        = false := by
  refine ⟨by norm_num [abs_of_pos], by norm_num, ?_, ?_⟩
  · have hnot : ¬ ((cimColor3D.mk (.num (5368709 / 536870912)) (.num 0) (.num 0)).IsBlack
        = true) := by
      simp only [cimColor3D.IsBlack, round_epsilon, Bool.and_eq_true, cfloat_fabs_lt]
      intro h
      have h1 := h.1.1
      rw [abs_of_pos (by norm_num)] at h1
      exact lt_irrefl _ h1
    simpa using hnot
  · have hnot : ¬ ((cimColor4D.mk (.num (5368709 / 536870912)) (.num 0) (.num 0)
        (.num 0)).IsBlack = true) := by
      simp only [cimColor4D.IsBlack, round_epsilon, Bool.and_eq_true, cfloat_fabs_lt]
      intro h
      have h1 := h.1.1.1
      rw [abs_of_pos (by norm_num)] at h1
      exact lt_irrefl _ h1
    simpa using hnot

/-- C15, amended: `IsBlack` uses the fixed epsilon `10e-3f`, the `float` nearest
to 1e-2, which is 5368709/2^29 and lies just below 1/100.  Over exact channel
values, `cimColor3D::IsBlack()` is true exactly when `|r|`, `|g|` and `|b|` are
each strictly below that epsilon, `cimColor4D::IsBlack()` exactly when `|r|`,
`|g|`, `|b|` and `|a|` are; so the colour with r = g = b = 0 and a = 1 is not
black. -/
theorem C15_IsBlack :
    cfloat.round (10 / 1000) = cfloat.num (5368709 / 536870912)
    ∧ (5368709 / 536870912 : ℚ) < 1 / 100
    ∧ (∀ r g b : ℚ, (cimColor3D.mk (.num r) (.num g) (.num b)).IsBlack = true
        ↔ |r| < 5368709 / 536870912 ∧ |g| < 5368709 / 536870912
          ∧ |b| < 5368709 / 536870912)
    ∧ (∀ r g b a : ℚ, (cimColor4D.mk (.num r) (.num g) (.num b) (.num a)).IsBlack = true
        ↔ |r| < 5368709 / 536870912 ∧ |g| < 5368709 / 536870912
          ∧ |b| < 5368709 / 536870912 ∧ |a| < 5368709 / 536870912)
    ∧ (cimColor4D.mk (.num 0) (.num 0) (.num 0) (.num 1)).IsBlack = false := by
  have h4 : ∀ r g b a : ℚ, (cimColor4D.mk (.num r) (.num g) (.num b) (.num a)).IsBlack = true
      ↔ |r| < 5368709 / 536870912 ∧ |g| < 5368709 / 536870912
        ∧ |b| < 5368709 / 536870912 ∧ |a| < 5368709 / 536870912 := by
    intro r g b a
    simp only [cimColor4D.IsBlack, round_epsilon, Bool.and_eq_true, cfloat_fabs_lt, and_assoc]
  refine ⟨round_epsilon, by norm_num, ?_, h4, ?_⟩
  · intro r g b
    simp only [cimColor3D.IsBlack, round_epsilon, Bool.and_eq_true, cfloat_fabs_lt, and_assoc]
  · have hnot : ¬ ((cimColor4D.mk (.num 0) (.num 0) (.num 0) (.num 1)).IsBlack = true) := by
      rw [h4]
      norm_num
    simpa using hnot

/-! ## Properties of `CheckFormat` -/

theorem bytes_succ (m : Mem) (n : Nat) :
    bytes m (n + 1) = m 0 :: bytes (fun j => m (j + 1)) n := by
  simp [bytes, List.range_succ_eq_map, List.map_map, Function.comp_def]

theorem strncmpFrom_eq_zero (a b : Mem) (n : Nat) :
    ∀ i, strncmpFrom a b i n = 0
      ↔ content (bytes (fun j => a (i + j)) n) = content (bytes (fun j => b (i + j)) n) := by
  induction n with
  | zero => intro i; simp [strncmpFrom, bytes]
  | succ k ih =>
    intro i
    have ha : (fun j => a (i + (j + 1))) = fun j => a (i + 1 + j) := by
      funext j; rw [show i + (j + 1) = i + 1 + j by omega]
    have hb : (fun j => b (i + (j + 1))) = fun j => b (i + 1 + j) := by
      funext j; rw [show i + (j + 1) = i + 1 + j by omega]
    rw [bytes_succ, bytes_succ]
    simp only [Nat.add_zero, ha, hb]
    by_cases hab : a i = b i
    · by_cases h0 : a i = 0
      · have hb0 : b i = 0 := by rw [← hab]; exact h0
        simp [strncmpFrom, hab, content, hb0]
      · have hb0 : ¬ b i = 0 := by rw [← hab]; exact h0
        have hstep : strncmpFrom a b i (k + 1) = strncmpFrom a b (i + 1) k := by
          simp [strncmpFrom, hab, hb0]
        rw [hstep, ih (i + 1)]
        simp [content, h0, hb0, hab]
    · have hne : strncmpFrom a b i (k + 1) ≠ 0 := by
        simp only [strncmpFrom, ne_eq, hab, not_false_eq_true, if_true]
        intro h
        apply hab
        apply Fin.ext
        omega
      constructor
      · intro h; exact absurd h hne
      · intro h
        exfalso
        by_cases h0 : a i = 0
        · have hb0 : ¬ b i = 0 := fun hb0 => hab (by rw [h0, hb0])
          simp [content, h0, hb0] at h
        · by_cases hb0 : b i = 0
          · simp [content, h0, hb0] at h
          · simp [content, h0, hb0] at h
            exact hab h.1

theorem CheckFormat_iff (t : cimTexture) (s : CStr) :
    t.CheckFormat s = true ↔ content (bytes t.achFormatHint 3) = content (bytes (cmem s) 3) := by
  have h := strncmpFrom_eq_zero t.achFormatHint (cmem s) 3 0
  simp only [Nat.zero_add] at h
  unfold cimTexture.CheckFormat strncmp
  rw [beq_iff_eq, eq_comm]
  exact h

/-- C12: `CheckFormat(s)` is true exactly when the format hint and `s` agree on
their first 3 characters as C strings (the characters before the first NUL among
the first 3 are the same on both sides).  With the hint `{'j','p','g',0}`,
`CheckFormat("jpg")` is true; with the hint `{'p','n','g',0}` it is false. -/
theorem C12_CheckFormat :
    (∀ (t : cimTexture) (s : CStr),
      t.CheckFormat s = true ↔ content (bytes t.achFormatHint 3) = content (bytes (cmem s) 3))
    ∧ (cimTexture.mk 0 0 (cmem [106, 112, 103, 0]) none).CheckFormat [106, 112, 103] = true
    ∧ (cimTexture.mk 0 0 (cmem [112, 110, 103, 0]) none).CheckFormat [106, 112, 103] = false := by
  refine ⟨CheckFormat_iff, by decide, by decide⟩

/-- C18: `CheckFormat` does not look past the third character of its argument:
for every texture and all C strings `s`, `u` that agree on their first 3
characters as C strings, `CheckFormat(s) = CheckFormat(u)`. -/
theorem C18_CheckFormat_three (t : cimTexture) (s u : CStr)
    (h : content (bytes (cmem s) 3) = content (bytes (cmem u) 3)) :
    t.CheckFormat s = t.CheckFormat u := by
  rw [Bool.eq_iff_iff, CheckFormat_iff, CheckFormat_iff, h]

/-- Witness of C18: with the hint `{'j','p','g',0}`, `CheckFormat("jpgx")` gives
what `CheckFormat("jpg")` gives, which is true. -/
theorem C18_CheckFormat_three_witness :
    content (bytes (cmem [106, 112, 103, 120]) 3) = content (bytes (cmem [106, 112, 103]) 3)
    ∧ (cimTexture.mk 0 0 (cmem [106, 112, 103, 0]) none).CheckFormat [106, 112, 103, 120]
        = (cimTexture.mk 0 0 (cmem [106, 112, 103, 0]) none).CheckFormat [106, 112, 103]
    ∧ (cimTexture.mk 0 0 (cmem [106, 112, 103, 0]) none).CheckFormat [106, 112, 103] = true :=
  ⟨by decide,
   C18_CheckFormat_three ⟨0, 0, cmem [106, 112, 103, 0], none⟩ [106, 112, 103, 120]
     [106, 112, 103] (by decide),
   by decide⟩

/-! ## Further properties of `cimString` -/

theorem strlen_of_no_nul (c : List Byte) (h : (0 : Byte) ∉ c) : strlen c = c.length := by
  induction c with
  | nil => rfl
  | cons x xs ih =>
    have hx : ¬ x = 0 := fun hx => h (by simp [hx])
    have hxs : (0 : Byte) ∉ xs := fun hm => h (List.mem_cons_of_mem _ hm)
    simp [strlen, hx, ih hxs]

theorem content_no_nul (a : CStr) : (0 : Byte) ∉ content a := by
  induction a with
  | nil => simp [content]
  | cons x xs ih =>
    by_cases hx : x = 0
    · simp [content, hx]
    · simp only [content, hx, if_false, List.mem_cons, not_or]
      exact ⟨fun h => hx h.symm, ih⟩

theorem strlen_cat (a b : CStr) : strlen (content a ++ content b) = strlen a + strlen b := by
  have hn : (0 : Byte) ∉ content a ++ content b := by
    simp only [List.mem_append, not_or]
    exact ⟨content_no_nul a, content_no_nul b⟩
  rw [strlen_of_no_nul _ hn, List.length_append, ← strlen_eq_content_length,
    ← strlen_eq_content_length]

theorem cmem_content_le (a : CStr) (i : Nat) (h : i ≤ strlen a) :
    (content a).getD i 0 = cmem a i := by
  rcases Nat.lt_or_eq_of_le h with hlt | heq
  · exact (cmem_content a i hlt).symm
  · rw [heq, cmem_strlen, List.getD_eq_default]
    rw [← strlen_eq_content_length]

theorem cmem_cat (a b : CStr) (i : Nat) (h : i ≤ strlen a + strlen b) :
    cmem (content a ++ content b) i
      = if i < strlen a then cmem a i else cmem b (i - strlen a) := by
  have hla : (content a).length = strlen a := (strlen_eq_content_length a).symm
  by_cases hi : i < strlen a
  · rw [if_pos hi]
    show (content a ++ content b).getD i 0 = _
    rw [List.getD_append _ _ _ _ (by rw [hla]; exact hi)]
    exact cmem_content_le a i (Nat.le_of_lt hi)
  · rw [if_neg hi]
    show (content a ++ content b).getD i 0 = _
    rw [List.getD_append_right _ _ _ _ (by rw [hla]; omega), hla]
    exact cmem_content_le b _ (by omega)

/-- C19: the two `Set` overloads agree: for every string `s` and every content `c`
of any length that holds no NUL byte, `Set(std::string(c))` and `Set(c)` with `c`
passed as `const char*` leave `s` in the same state, whether `c` fits or not. -/
theorem C19_Set_overloads_agree (s : cimString) (c : List Byte) (h : (0 : Byte) ∉ c) :
    s.Set c = s.SetC c := by
  have hl : strlen c = c.length := strlen_of_no_nul c h
  by_cases hc : c.length ≤ 1023
  · rw [Set_fits s c hc, SetC_fits s c (by rw [hl]; exact hc), hl]
    rfl
  · rw [Set_rejects s c (by omega), SetC_rejects s c (by rw [hl]; omega)]

/-- Witness of C19: the content "hi", which fits, and 1024 bytes 'A', which do not. -/
theorem C19_Set_overloads_agree_witness :
    (cimString.mk 5 (fun _ => 7)).Set [104, 105] = (cimString.mk 5 (fun _ => 7)).SetC [104, 105]
    ∧ (cimString.mk 5 (fun _ => 7)).Set (List.replicate 1024 65)
        = (cimString.mk 5 (fun _ => 7)).SetC (List.replicate 1024 65) :=
  ⟨C19_Set_overloads_agree ⟨5, fun _ => 7⟩ [104, 105] (by decide),
   C19_Set_overloads_agree ⟨5, fun _ => 7⟩ (List.replicate 1024 65)
     (fun hm => absurd (List.eq_of_mem_replicate hm) (by decide))⟩

theorem Append_congr (s : cimString) (x y : CStr) (hl : strlen x = strlen y)
    (hm : ∀ j, j ≤ strlen x → cmem x j = cmem y j) : s.Append x = s.Append y := by
  have hd : memcpy s.data s.length (cmem x) (strlen x + 1)
      = memcpy s.data s.length (cmem y) (strlen x + 1) := by
    funext i
    simp only [memcpy]
    by_cases hi : s.length ≤ i ∧ i < s.length + (strlen x + 1)
    · rw [if_pos hi, if_pos hi]
      exact hm _ (by omega)
    · rw [if_neg hi, if_neg hi]
  simp only [cimString.Append, memcpyInto, ← hl, hd]

theorem Append_twice (s : cimString) (a b : CStr)
    (h : s.length + strlen a + strlen b ≤ 1023) :
    (s.Append a).bind (fun s1 => s1.Append b) = s.Append (content a ++ content b) := by
  by_cases ha : strlen a = 0
  · rw [Append_empty s a ha, Option.some_bind]
    apply Append_congr
    · rw [strlen_cat, ha, Nat.zero_add]
    · intro j hj
      have := cmem_cat a b j (by omega)
      rw [this, if_neg (by omega), ha, Nat.sub_zero]
  · by_cases hb : strlen b = 0
    · rw [Append_no_wrap s a ha (by omega), Option.some_bind, Append_empty _ b hb,
        ← Append_no_wrap s a ha (by omega)]
      apply Append_congr
      · rw [strlen_cat, hb, Nat.add_zero]
      · intro j hj
        rw [cmem_cat a b j (by omega)]
        by_cases hlt : j < strlen a
        · rw [if_pos hlt]
        · rw [if_neg hlt]
          have hj' : j = strlen a := by omega
          rw [hj', Nat.sub_self, cmem_strlen]
          have := cmem_strlen b
          rw [hb] at this
          exact this.symm
    · have hab : strlen (content a ++ content b) ≠ 0 := by rw [strlen_cat]; omega
      rw [Append_no_wrap s a ha (by omega), Option.some_bind,
        Append_no_wrap _ b hb (by show s.length + strlen a + strlen b ≤ 1023; exact h),
        Append_no_wrap s _ hab (by rw [strlen_cat]; omega), strlen_cat]
      have hd : memcpy (memcpy s.data s.length (cmem a) (strlen a + 1)) (s.length + strlen a)
            (cmem b) (strlen b + 1)
          = memcpy s.data s.length (cmem (content a ++ content b))
              (strlen a + strlen b + 1) := by
        funext i
        simp only [memcpy]
        by_cases h1 : s.length ≤ i ∧ i < s.length + (strlen a + strlen b + 1)
        · rw [if_pos h1, cmem_cat a b (i - s.length) (by omega)]
          by_cases h2 : i - s.length < strlen a
          · rw [if_pos h2, if_neg (by omega), if_pos (by omega)]
          · rw [if_neg h2, if_pos (by omega)]
            congr 1
            omega
        · rw [if_neg h1, if_neg (by omega), if_neg (by omega)]
      show some (cimString.mk (s.length + strlen a + strlen b) _) = some (cimString.mk _ _)
      rw [hd, Nat.add_assoc]

theorem Append_returns (s : cimString) (app : CStr) (h : s.length + strlen app ≤ 1023) :
    ∃ s', s.Append app = some s' ∧ s'.length = s.length + strlen app := by
  by_cases h0 : strlen app = 0
  · exact ⟨s, Append_empty s app h0, by omega⟩
  · exact ⟨_, Append_no_wrap s app h0 h, rfl⟩

/-- C17: appending in two steps equals appending the concatenation: for every
string `s` that satisfies the invariant and all C strings `a`, `b` with
`length + strlen(a) + strlen(b) <= 1023`, `Append(a)`, then `Append(b)`, and one
`Append` of the concatenation of `a` and `b` all return a state, and the state
after the two steps has the same `length` and the same bytes at offsets
`0 .. length` as the state after the single step; the two states are in fact the
same in every byte of the buffer. -/
theorem C17_Append_twice (s : cimString) (a b : CStr) (_hinv : Inv s)
    (h : s.length + strlen a + strlen b ≤ 1023) :
    ∃ s1 s2 s3, s.Append a = some s1 ∧ s1.Append b = some s2
      ∧ s.Append (content a ++ content b) = some s3
      ∧ s2.length = s3.length
      ∧ bytes s2.C_Str (s2.length + 1) = bytes s3.C_Str (s3.length + 1)
      ∧ s2 = s3 := by
  obtain ⟨s1, h1, hl1⟩ := Append_returns s a (by omega)
  obtain ⟨s2, h2, _⟩ := Append_returns s1 b (by omega)
  have h3 := Append_twice s a b h
  rw [h1, Option.some_bind, h2] at h3
  exact ⟨s1, s2, s2, h1, h2, h3.symm, rfl, rfl, rfl⟩

/-- Witness of C17: "hi" takes "AB" and then "C", or "ABC" at once. -/
theorem C17_Append_twice_witness :
    Inv (cimString.mk 2 (fun i => if i = 0 then 104 else if i = 1 then 105 else 0))
    ∧ ∃ s1 s2,
        (cimString.mk 2 (fun i => if i = 0 then 104 else if i = 1 then 105 else 0)).Append
          [65, 66] = some s1
        ∧ s1.Append [67] = some s2
        ∧ (cimString.mk 2 (fun i => if i = 0 then 104 else if i = 1 then 105 else 0)).Append
          (content [65, 66] ++ content [67]) = some s2 :=
  ⟨by decide,
   match C17_Append_twice ⟨2, fun i => if i = 0 then 104 else if i = 1 then 105 else 0⟩
      [65, 66] [67] (by decide) (by decide) with
   | ⟨s1, s2, s3, h1, h2, h3, _, _, h6⟩ => ⟨s1, s2, h1, h2, h6 ▸ h3⟩⟩

/-! ## Destruction of a tree of `cimObject` -/

theorem Holds_congr (h h' : Heap) (f : Forest) (hx : ∀ x, x ∈ f.nodes → h x = h' x)
    (hf : f.Holds h) : f.Holds h' := by
  induction f with
  | nil => trivial
  | cons a k r ihk ihr =>
    obtain ⟨h0, ha, hk, hr⟩ := hf
    refine ⟨h0, ?_, ihk ?_ hk, ihr ?_ hr⟩
    · rw [← hx a (by simp [Forest.nodes])]; exact ha
    · intro x hm; exact hx x (by simp [Forest.nodes, hm])
    · intro x hm; exact hx x (by simp [Forest.nodes, hm])

theorem size_eq_length_nodes (f : Forest) : f.size = f.nodes.length := by
  induction f with
  | nil => rfl
  | cons a k r ihk ihr => simp [Forest.size, Forest.nodes, ihk, ihr]; omega

theorem deleteEach_forest (f : Forest) :
    ∀ (heap : Heap) (log : List Nat) (fuel : Nat),
      f.Holds heap → f.nodes.Nodup → f.depth ≤ fuel →
      cimObject.deleteEach (cimObject.delete fuel) f.roots ⟨heap, log⟩
        = some ⟨fun x => if x ∈ f.nodes then none else heap x, log ++ f.nodes⟩ := by
  induction f with
  | nil =>
    intro heap log fuel _ _ _
    simp [Forest.roots, Forest.nodes, cimObject.deleteEach]
  | cons a k r ihk ihr =>
    intro heap log fuel hf hnd hfuel
    obtain ⟨h0, ha, hk, hr⟩ := hf
    simp only [Forest.nodes] at hnd
    have hndk : k.nodes.Nodup := (List.nodup_append.mp hnd).1
    have hndar : (a :: r.nodes).Nodup := (List.nodup_append.mp hnd).2.1
    have hdis : ∀ x, x ∈ k.nodes → x ∈ a :: r.nodes → False :=
      fun x h1 h2 => (List.nodup_append.mp hnd).2.2 h1 h2
    have hndr : r.nodes.Nodup := (List.nodup_cons.mp hndar).2
    have har : a ∉ r.nodes := (List.nodup_cons.mp hndar).1
    have hak : a ∉ k.nodes := fun hm => hdis a hm (by simp)
    simp only [Forest.depth] at hfuel
    obtain ⟨n, rfl⟩ : ∃ n, fuel = n + 1 := ⟨fuel - 1, by omega⟩
    obtain ⟨o, ho, hsub⟩ : ∃ o, heap a = some o ∧ o.m_SubObjects = k.roots := by
      cases hh : heap a with
      | none => rw [hh] at ha; simp at ha
      | some o => rw [hh] at ha; exact ⟨o, rfl, by simpa using ha⟩
    have hkids := ihk heap log n hk hndk (by omega)
    have hdel : cimObject.delete (n + 1) a ⟨heap, log⟩
        = some ⟨fun x => if x = a then none else if x ∈ k.nodes then none else heap x,
                (log ++ k.nodes) ++ [a]⟩ := by
      simp only [cimObject.delete, h0, if_false, ho, hsub, hkids, hak]
    have hrest := ihr (fun x => if x = a then none else if x ∈ k.nodes then none else heap x)
      ((log ++ k.nodes) ++ [a]) (n + 1)
      (Holds_congr heap _ r (fun x hm => by
        have hxa : x ≠ a := fun e => har (e ▸ hm)
        have hxk : x ∉ k.nodes := fun hm' => hdis x hm' (by simp [hm])
        simp [hxa, hxk]) hr)
      hndr (by omega)
    simp only [Forest.roots, cimObject.deleteEach, hdel, hrest]
    congr 2
    · funext x
      by_cases hxr : x ∈ r.nodes
      · simp [Forest.nodes, hxr]
      · by_cases hxa : x = a
        · simp [Forest.nodes, hxa]
        · by_cases hxk : x ∈ k.nodes
          · simp [Forest.nodes, hxk]
          · simp [Forest.nodes, hxr, hxa, hxk]
    · simp [Forest.nodes]

/-- C16: when the free store holds a tree of `cimObject` at `root` and no address
occurs twice in it (each child pointer is owned by exactly one parent), then
`delete root` returns, for every recursion budget of at least the depth of the
tree, and it has destroyed exactly the nodes of the tree, children before their
parent: as many destructions as the tree has nodes, each node once, no address
twice; afterwards no node of the tree is allocated and every other address of
the free store is as before. -/
theorem C16_delete_tree (heap : Heap) (root : Nat) (kids : Forest) (fuel : Nat)
    (hholds : (Forest.cons root kids .nil).Holds heap)
    (hown : (Forest.cons root kids .nil).nodes.Nodup)
    (hfuel : (Forest.cons root kids .nil).depth ≤ fuel) :
    ∃ st, cimObject.delete fuel root ⟨heap, []⟩ = some st
      ∧ st.destroyed = (Forest.cons root kids .nil).nodes
      ∧ st.destroyed.length = (Forest.cons root kids .nil).size
      ∧ st.destroyed.Nodup
      ∧ (∀ x, x ∈ (Forest.cons root kids .nil).nodes → st.destroyed.count x = 1)
      ∧ (∀ x, x ∈ (Forest.cons root kids .nil).nodes → st.heap x = none)
      ∧ (∀ x, x ∉ (Forest.cons root kids .nil).nodes → st.heap x = heap x) := by
  have h := deleteEach_forest (Forest.cons root kids .nil) heap [] fuel hholds hown hfuel
  simp only [Forest.roots, cimObject.deleteEach, List.nil_append] at h
  cases hd : cimObject.delete fuel root ⟨heap, []⟩ with
  | none => rw [hd] at h; exact absurd h (by simp)
  | some st =>
    rw [hd] at h
    have hst : st = ⟨fun x => if x ∈ (Forest.cons root kids .nil).nodes then none else heap x,
        (Forest.cons root kids .nil).nodes⟩ := by
      simpa using h
    refine ⟨st, rfl, ?_, ?_, ?_, ?_, ?_, ?_⟩
    · rw [hst]
    · rw [hst, size_eq_length_nodes]
    · rw [hst]; exact hown
    · intro x hx
      rw [hst]
      exact List.count_eq_one_of_mem hown hx
    · intro x hx
      rw [hst]
      simp only [hx, if_true]
    · intro x hx
      rw [hst]
      simp only [hx, if_false]

/-- Witness of C16: the four-node tree of `sampleHeap`, deleted at its root with
a budget of 3: the nodes 4, 2, 3, 1 are destroyed in this order. -/
theorem C16_delete_tree_witness :
    sampleTree.Holds sampleHeap ∧ sampleTree.nodes.Nodup ∧ sampleTree.depth ≤ 3
    ∧ ∃ st, cimObject.delete 3 1 ⟨sampleHeap, []⟩ = some st
        ∧ st.destroyed = [4, 2, 3, 1] ∧ st.heap 4 = none :=
  have hh : sampleTree.Holds sampleHeap := by
    simp [sampleTree, sampleHeap, Forest.Holds, Forest.roots]
  have hn : sampleTree.nodes.Nodup := by decide
  have hd : sampleTree.depth ≤ 3 := by decide
  ⟨hh, hn, hd,
    match C16_delete_tree sampleHeap 1 (.cons 2 (.cons 4 .nil .nil) (.cons 3 .nil .nil)) 3
      hh hn hd with
    | ⟨st, h1, h2, _, _, _, h6, _⟩ => ⟨st, h1, h2, h6 4 (by decide)⟩⟩

end Cim
